import Mathlib

/-!
Shallow embedding of the core selection engine of the wheelit repository:
the weighted segment builder (getSegmentAngles), the angle resolver
(determineWinningSegment), the direct weighted pick (getWeightedWinner),
the multiple-pick shuffle, the constrained team partitioner (createTeams)
and the spin driver (performSpin).  JavaScript numbers are embedded as
rationals, the JavaScript remainder operator as jsRem, and optional
object properties as Option fields.
-/

/-- Wheel mode, from the WheelMode union type in src/app/spin/page.tsx. -/
inductive WheelMode where
  | simple
  | teams
  | weighted
  | multiple
deriving DecidableEq, Repr

/-- Item record, from the WheelItem interface in src/app/spin/page.tsx. -/
structure WheelItem where
  id : String
  name : String
  weight : Option ℚ := none
  color : Option String := none
deriving DecidableEq, Repr

/-- Constraint type tag, from the TeamConstraint interface. -/
inductive ConstraintType where
  | avoid
  | separate
deriving DecidableEq, Repr

/-- Pairwise team constraint, from the TeamConstraint interface. -/
structure TeamConstraint where
  id : String
  item1Id : String
  item2Id : String
  type : ConstraintType
deriving DecidableEq, Repr

/-- Angular segment produced by getSegmentAngles:
the object literal with fields start, angle and end. -/
structure SegAngle where
  start : ℚ
  angle : ℚ
  «end» : ℚ
deriving DecidableEq, Repr

/-- Default segment used with List.getD. -/
def dSeg : SegAngle := ⟨0, 0, 0⟩

/-- Default item used with List.getD. -/
def dItem : WheelItem := ⟨"", "", none, none⟩

/-- JavaScript remainder a % b: the remainder after division truncated
toward zero, so the result carries the sign of the dividend. -/
def jsRem (a b : ℚ) : ℚ :=
  if a / b < 0 then a - b * ((Int.ceil (a / b) : ℤ) : ℚ)
  else a - b * ((Int.floor (a / b) : ℤ) : ℚ)

/-- Rotation normalisation ((r % 360) + 360) % 360 used by both resolvers. -/
def normalize360 (r : ℚ) : ℚ := jsRem (jsRem r 360 + 360) 360

/-- Pointer angle (360 - normalizedRotation) % 360 from
determineWinningSegment in src/app/spin/page.tsx. -/
def pointerAngle (r : ℚ) : ℚ := jsRem (360 - normalize360 r) 360

/-- The expression (item.weight || 0) used by getSegmentAngles:
an absent weight counts as 0 (and the JavaScript falsy value 0 stays 0). -/
def weightOrZero (it : WheelItem) : ℚ := it.weight.getD 0

/-- The expression (item.weight || 1) used by WheelCanvas and
getWeightedWinner: an absent weight counts as 1, and because 0 is falsy
in JavaScript an explicit weight of 0 also counts as 1. -/
def weightOrOne (it : WheelItem) : ℚ :=
  match it.weight with
  | none => 1
  | some x => if x = 0 then 1 else x

/-- The reduce computing totalPercentage in getSegmentAngles. -/
def totalPercentage (items : List WheelItem) : ℚ :=
  items.foldl (fun s it => s + weightOrZero it) 0

/-- The currentAngle loop of the weighted branch of getSegmentAngles:
each item contributes angle = (weight || 0) / denom * 360 with
denom = max(totalPercentage, 1), and the running angle advances. -/
def buildWeighted (denom : ℚ) : ℚ → List WheelItem → List SegAngle
  | _, [] => []
  | cur, it :: rest =>
    let angle := weightOrZero it / denom * 360
    ⟨cur, angle, cur + angle⟩ :: buildWeighted denom (cur + angle) rest

/-- getSegmentAngles from src/app/spin/page.tsx: proportional segments in
weighted mode (with the max(total, 1) division guard), equal segments of
360 / items.length otherwise. -/
def getSegmentAngles (items : List WheelItem) (mode : WheelMode) : List SegAngle :=
  if mode = .weighted then
    buildWeighted (max (totalPercentage items) 1) 0 items
  else
    let segmentAngle : ℚ := 360 / (items.length : ℚ)
    (List.range items.length).map fun (index : ℕ) =>
      ⟨(index : ℚ) * segmentAngle, segmentAngle, ((index : ℚ) + 1) * segmentAngle⟩

/-- The loop test pointerAngle >= segment.start && pointerAngle < segment.end. -/
def segMatch (p : ℚ) (s : SegAngle) : Bool :=
  decide (s.start ≤ p ∧ p < s.«end»)

/-- Index of the first segment whose half-open interval contains p,
mirroring the for-loop of determineWinningSegment. -/
def findMatchIdx (p : ℚ) : List SegAngle → Option ℕ
  | [] => none
  | s :: rest => if segMatch p s then some 0 else (findMatchIdx p rest).map (· + 1)

/-- The scan-and-fallback body of determineWinningSegment: first matching
segment's item, otherwise items[items.length - 1] (undefined, i.e. none,
when the item list is empty). -/
def resolveAtPointer (segments : List SegAngle) (items : List WheelItem) (p : ℚ) :
    Option WheelItem :=
  match findMatchIdx p segments with
  | some i => items.get? i
  | none => items.getLast?

/-- determineWinningSegment from src/app/spin/page.tsx (the closure
variable segmentAngles is passed explicitly). -/
def determineWinningSegment (segments : List SegAngle) (items : List WheelItem)
    (finalRotation : ℚ) : Option WheelItem :=
  resolveAtPointer segments items (pointerAngle finalRotation)

/-- Sum of the angle fields of a segment list. -/
def sumAngles (segs : List SegAngle) : ℚ := (segs.map SegAngle.angle).sum

/-- Well-formed contiguous chain of segments starting at c: each segment
starts where the previous one ended and its end is start + angle. -/
def segChain : ℚ → List SegAngle → Prop
  | _, [] => True
  | c, s :: rest => s.start = c ∧ s.«end» = c + s.angle ∧ segChain s.«end» rest

/-- The reduce computing totalWeight with the (item.weight || 1) default,
used by WheelCanvas.determineWinningSegment and by getWeightedWinner. -/
def canvasTotalWeight (items : List WheelItem) : ℚ :=
  items.foldl (fun s it => s + weightOrOne it) 0

/-- The subtraction loop of getWeightedWinner: walk the items subtracting
(weight || 1) from the running draw, returning the first item at which the
remainder drops to 0 or below. -/
def gwwLoop : ℚ → List WheelItem → Option WheelItem
  | _, [] => none
  | random, it :: rest =>
    let r := random - weightOrOne it
    if r ≤ 0 then some it else gwwLoop r rest

/-- getWeightedWinner from the UI variant: draw is the injected
Math.random() value in the interval from 0 inclusive to 1 exclusive,
scaled by the total weight; the loop fallback returns the last item. -/
def getWeightedWinner (items : List WheelItem) (draw : ℚ) : Option WheelItem :=
  match gwwLoop (draw * canvasTotalWeight items) items with
  | some it => some it
  | none => items.getLast?

/-- The push of an item onto teams[i] (out-of-range indices never occur
in the partitioner because selected indices are always below the team
count). -/
def pushAt (ts : List (List WheelItem)) (i : ℕ) (x : WheelItem) :
    List (List WheelItem) :=
  ts.set i (ts.getD i [] ++ [x])

/-- wouldViolateConstraints from createTeams in src/app/spin/page.tsx:
a placement violates when some constraint links the item to a member
already in the chosen team (the constraint type tag is not consulted). -/
def wouldViolateConstraints (constraints : List TeamConstraint)
    (teams : List (List WheelItem)) (item : WheelItem) (teamIndex : ℕ) : Bool :=
  let team := teams.getD teamIndex []
  constraints.any fun c =>
    let isItem1 := c.item1Id == item.id
    let isItem2 := c.item2Id == item.id
    if !isItem1 && !isItem2 then false
    else
      let otherItemId := if isItem1 then c.item2Id else c.item1Id
      team.any fun m => m.id == otherItemId

/-- The per-team score records built at the start of findBestTeam. -/
structure TeamScore where
  index : ℕ
  size : ℕ
  violates : Bool
deriving DecidableEq, Repr

/-- The teams.map building index/size/violates records in findBestTeam. -/
def teamScoresOf (constraints : List TeamConstraint)
    (teams : List (List WheelItem)) (item : WheelItem) : List TeamScore :=
  (List.range teams.length).map fun i =>
    ⟨i, (teams.getD i []).length, wouldViolateConstraints constraints teams item i⟩

/-- The JavaScript reduce picking the record of strictly smallest size
(first element is the initial accumulator; ties keep the earlier record). -/
def reduceSmallest : TeamScore → List TeamScore → TeamScore
  | acc, [] => acc
  | acc, s :: rest => reduceSmallest (if s.size < acc.size then s else acc) rest

/-- findBestTeam from createTeams: the smallest non-violating team, or the
smallest team overall when every team would violate some constraint. -/
def findBestTeam (constraints : List TeamConstraint)
    (teams : List (List WheelItem)) (item : WheelItem) : ℕ :=
  let teamScores := teamScoresOf constraints teams item
  let validTeams := teamScores.filter fun s => !s.violates
  match validTeams with
  | [] =>
    match teamScores with
    | [] => 0
    | s :: rest => (reduceSmallest s rest).index
  | s :: rest => (reduceSmallest s rest).index

/-- The teams.reduce with initial index 0 used by the unassigned-items
fallback of createTeams: index of the first smallest team. -/
def smallestTeamIndex (teams : List (List WheelItem)) : ℕ :=
  (List.range teams.length).foldl
    (fun smallestIndex index =>
      if (teams.getD index []).length < (teams.getD smallestIndex []).length then index
      else smallestIndex) 0

/-- The splice removing from the unassigned list the first item whose id
matches (a no-op when no id matches, as in the source's findIndex check). -/
def removeFirstById : List WheelItem → String → List WheelItem
  | [], _ => []
  | y :: ys, i => if y.id = i then ys else y :: removeFirstById ys i

/-- The no-constraints path of createTeams: deal the shuffled items
round-robin, item at position index going to team index % teamCount. -/
def roundRobin (shuffled : List WheelItem) (teamCount : ℕ) : List (List WheelItem) :=
  shuffled.enum.foldl (fun ts p => pushAt ts (p.1 % teamCount) p.2)
    (List.replicate teamCount [])

/-- The attempt ceiling of the constrained path. -/
def maxAttempts : ℕ := 1000

/-- createTeams from src/app/spin/page.tsx.  The caller supplies both the
original item list (items, from which the unassigned list starts) and the
shuffled order (shuffled, the output of the random shuffle, required to be
a permutation of items); the source removes assigned items from the
unassigned list inside the first-pass loop, which has the same effect as
folding the removals afterwards, and the post-loop fallback pushes each
still-unassigned item onto the first smallest team. -/
def createTeams (items shuffled : List WheelItem) (teamCount : ℕ)
    (constraints : List TeamConstraint) : List (List WheelItem) :=
  if constraints = [] then roundRobin shuffled teamCount
  else
    let initTeams : List (List WheelItem) := List.replicate teamCount []
    let firstPass := shuffled.take maxAttempts
    let teams1 := firstPass.foldl
      (fun ts it => pushAt ts (findBestTeam constraints ts it) it) initTeams
    let unassigned := firstPass.foldl (fun acc it => removeFirstById acc it.id) items
    unassigned.foldl (fun ts it => pushAt ts (smallestTeamIndex ts) it) teams1

/-- Smallest size among a list of team scores (0 for the empty list,
which never occurs for a non-empty team list). -/
def minSizeOf : List TeamScore → ℕ
  | [] => 0
  | s :: rest => rest.foldl (fun m x => min m x.size) s.size

/-- All indices findBestTeam could return under an arbitrary tie-break
among minimum-size teams: the non-violating teams of minimum size, or all
teams of minimum size when every placement violates (specification 4.4b
leaves the choice among ties unspecified). -/
def bestTeamCandidates (constraints : List TeamConstraint)
    (teams : List (List WheelItem)) (item : WheelItem) : List ℕ :=
  let scores := teamScoresOf constraints teams item
  let valid := scores.filter fun s => !s.violates
  let pool := if valid.isEmpty then scores else valid
  (pool.filter fun s => s.size == minSizeOf pool).map TeamScore.index

/-- All team configurations reachable by the first-pass assignment loop
when ties among minimum-size teams are broken arbitrarily. -/
def ndAssign (constraints : List TeamConstraint) (shuffled : List WheelItem)
    (initTeams : List (List WheelItem)) : List (List (List WheelItem)) :=
  shuffled.foldl
    (fun states it =>
      states.flatMap fun ts =>
        (bestTeamCandidates constraints ts it).map fun i => pushAt ts i it)
    [initTeams]

/-- Nondeterministic variant of the constrained path of createTeams over
all tie-break choices (the first pass covers every item when fewer than
maxAttempts items exist, as in every claim instance). -/
def runND (constraints : List TeamConstraint) (shuffled : List WheelItem)
    (teamCount : ℕ) : List (List (List WheelItem)) :=
  ndAssign constraints (shuffled.take maxAttempts) (List.replicate teamCount [])

/-- No team contains both of two given item ids. -/
def teamsSeparated (teams : List (List WheelItem)) (id1 id2 : String) : Bool :=
  teams.all fun t => !((t.any fun m => m.id == id1) && (t.any fun m => m.id == id2))

def itemA : WheelItem := ⟨"a", "A", none, none⟩

def itemB : WheelItem := ⟨"b", "B", none, none⟩

def itemC : WheelItem := ⟨"c", "C", none, none⟩

def itemD : WheelItem := ⟨"d", "D", none, none⟩

def itemsABCD : List WheelItem := [itemA, itemB, itemC, itemD]

def avoidAB : TeamConstraint := ⟨"c1", "a", "b", .avoid⟩

/-- Balance invariant of the round-robin deal after k items: the first
k % tc teams hold m + 1 items and the rest hold m. -/
def rrInv (tc k : ℕ) (ts : List (List WheelItem)) : Prop :=
  ts.length = tc ∧
  ∃ m, ∀ j < tc, (ts.getD j []).length = m + (if j < k % tc then 1 else 0)

/-- One insertion into the sorted-so-far prefix, one comparator coin per
comparison.  Models one element's placement during the engine's insertion
sort of [...items].sort(() => Math.random() - 0.5): a true coin is a
negative comparator result (the inserted element is ordered before the
compared one), which the random comparator produces with probability one
half; the second component is the index of the next unused coin. -/
def insertRand (coins : List Bool) : ℕ → WheelItem → List WheelItem →
    List WheelItem × ℕ
  | k, x, [] => ([x], k)
  | k, x, y :: ys =>
    if coins.getD k false then (x :: y :: ys, k + 1)
    else
      let r := insertRand coins (k + 1) x ys
      (y :: r.1, r.2)

/-- Comparison-sort model of the random-comparator shuffle
[...items].sort(() => Math.random() - 0.5) used by handleWheelResult and
performSelection: insertion sort whose comparisons consume fair coins.
Any deterministic comparison sort driven by fair coins gives each
permutation a dyadic probability, so the non-uniformity conclusion does
not depend on the choice of insertion order. -/
def sortRand (coins : List Bool) (items : List WheelItem) : List WheelItem :=
  (items.foldl (fun acc x =>
    let r := insertRand coins acc.2 x acc.1
    (r.1, r.2)) (([] : List WheelItem), 0)).1

/-- The multiple-mode pick: shuffle the full list, take the first count. -/
def pickMultipleRandom (coins : List Bool) (items : List WheelItem) (count : ℕ) :
    List WheelItem :=
  (sortRand coins items).take count

/-- The eight equally likely outcomes of three fair comparator coins
(three coins bound the comparisons used to shuffle three items). -/
def coinTriples : List (List Bool) :=
  [[false, false, false], [false, false, true], [false, true, false],
   [false, true, true], [true, false, false], [true, false, true],
   [true, true, false], [true, true, true]]

def itemsTri : List WheelItem :=
  [⟨"1", "A", none, none⟩, ⟨"2", "B", none, none⟩, ⟨"3", "C", none, none⟩]

/-- Number of the eight equally likely coin outcomes that shuffle the
three items into a given order (8 times the outcome probability). -/
def shuffleCount (perm : List WheelItem) : ℕ :=
  (coinTriples.map fun cs => pickMultipleRandom cs itemsTri 3).countP
    fun l => decide (l = perm)

/-- Substring test modelling String.prototype.includes, over character
lists. -/
def containsSub (needle hay : List Char) : Bool :=
  hay.tails.any fun t => needle.isPrefixOf t

/-- Lowercasing modelling String.prototype.toLowerCase, over the
character list of the name. -/
def lowerChars (s : String) : List Char := s.toList.map Char.toLower

/-- The cheat-target lookup of performSpin: position counter 1 searches
for a name containing gatien, position counter 2 for raphael, later
positions have no target. -/
def cheatTarget (items : List WheelItem) (selectionPosition : ℕ) : Option WheelItem :=
  if selectionPosition = 1 then
    items.find? fun it => containsSub "gatien".toList (lowerChars it.name)
  else if selectionPosition = 2 then
    items.find? fun it => containsSub "raphael".toList (lowerChars it.name)
  else none

/-- The brute-force search loop of performSpin: up to the attempt ceiling,
draw a candidate rotation (base rotations 5 + random * 3, plus a random
test angle) and accept it when the resolver lands on the target id; each
attempt consumes the next two injected random draws. -/
def cheatSearch (segs : List SegAngle) (items : List WheelItem) (targetId : String)
    (wheelRotation : ℚ) (rand : ℕ → ℚ) : ℕ → ℕ → Option ℚ
  | _, 0 => none
  | t, fuel + 1 =>
    let candidate :=
      wheelRotation + (5 + rand (2 * t) * 3) * 360 + rand (2 * t + 1) * 360
    match determineWinningSegment segs items candidate with
    | some w =>
      if w.id = targetId then some candidate
      else cheatSearch segs items targetId wheelRotation rand (t + 1) fuel
    | none => cheatSearch segs items targetId wheelRotation rand (t + 1) fuel

/-- performSpin from src/app/spin/page.tsx, reduced to the winner it
reports: in simple mode with removeAfterSpin and position counter at
least 1 it looks up the cheat target and searches for a rotation landing
on it (falling back to a normal random spin with base rotations
5 + random * 5 when no target exists or the search exhausts its
attempts); otherwise it spins normally. -/
def performSpin (items : List WheelItem) (mode : WheelMode) (removeAfterSpin : Bool)
    (selectionPosition : ℕ) (wheelRotation : ℚ) (rand : ℕ → ℚ) : Option WheelItem :=
  let segs := getSegmentAngles items mode
  if mode = .simple ∧ removeAfterSpin = true ∧ 1 ≤ selectionPosition then
    match cheatTarget items selectionPosition with
    | some cheatWinner =>
      match cheatSearch segs items cheatWinner.id wheelRotation rand 0 maxAttempts with
      | some _ => some cheatWinner
      | none =>
        determineWinningSegment segs items
          (wheelRotation + (5 + rand (2 * maxAttempts) * 5) * 360 +
            rand (2 * maxAttempts + 1) * 360)
    | none =>
      determineWinningSegment segs items
        (wheelRotation + (5 + rand 0 * 5) * 360 + rand 1 * 360)
  else
    determineWinningSegment segs items
      (wheelRotation + (5 + rand 0 * 5) * 360 + rand 1 * 360)

def gItems : List WheelItem :=
  [⟨"g2", "Gatien", none, none⟩, ⟨"g1", "Alice", none, none⟩]

def gRand : ℕ → ℚ := fun _ => 0

/-- For a non-negative dividend and positive divisor, the JavaScript
remainder lies in the interval from 0 inclusive to the divisor exclusive. -/
theorem jsRem_nonneg_bounds (a b : ℚ) (ha : 0 ≤ a) (hb : 0 < b) :
    0 ≤ jsRem a b ∧ jsRem a b < b := by
  have hq : 0 ≤ a / b := div_nonneg ha hb.le
  have hif : ¬ (a / b < 0) := not_lt.mpr hq
  have hfl : jsRem a b = a - (Int.floor (a / b) : ℚ) * b := by
    rw [jsRem, if_neg hif]; ring
  constructor
  · rw [hfl]; exact Int.sub_floor_div_mul_nonneg a hb
  · rw [hfl]; exact Int.sub_floor_div_mul_lt a hb

/-- For a negative dividend and positive divisor, the JavaScript remainder
lies in the interval from the negated divisor exclusive to 0 inclusive. -/
theorem jsRem_neg_bounds (a b : ℚ) (ha : a < 0) (hb : 0 < b) :
    -b < jsRem a b ∧ jsRem a b ≤ 0 := by
  have hq : a / b < 0 := div_neg_of_neg_of_pos ha hb
  have hzero : jsRem a b = a - b * (Int.ceil (a / b) : ℚ) := by
    rw [jsRem, if_pos hq]
  constructor
  · rw [hzero]
    have h1 : (Int.ceil (a / b) : ℚ) < a / b + 1 := Int.ceil_lt_add_one (a / b)
    have h2 : b * (Int.ceil (a / b) : ℚ) < b * (a / b + 1) :=
      (mul_lt_mul_left hb).mpr h1
    have h3 : b * (a / b + 1) = a + b := by field_simp
    nlinarith
  · rw [hzero]
    have h1 : a / b ≤ (Int.ceil (a / b) : ℚ) := Int.le_ceil (a / b)
    have h2 : b * (a / b) ≤ b * (Int.ceil (a / b) : ℚ) :=
      (mul_le_mul_left hb).mpr h1
    have h3 : b * (a / b) = a := by field_simp
    nlinarith

/-- The normalised rotation ((r % 360) + 360) % 360 always lands in
the interval from 0 inclusive to 360 exclusive. -/
theorem normalize360_bounds (r : ℚ) : 0 ≤ normalize360 r ∧ normalize360 r < 360 := by
  have h360 : (0 : ℚ) < 360 := by norm_num
  rcases le_or_lt 0 r with hr | hr
  · have h1 := jsRem_nonneg_bounds r 360 hr h360
    have h2 : (0 : ℚ) ≤ jsRem r 360 + 360 := by linarith [h1.1]
    exact jsRem_nonneg_bounds _ 360 h2 h360
  · rcases le_or_lt 0 (jsRem r 360) with h1 | h1
    · have h2 : (0 : ℚ) ≤ jsRem r 360 + 360 := by linarith
      exact jsRem_nonneg_bounds _ 360 h2 h360
    · have h0 := jsRem_neg_bounds r 360 hr h360
      have h2 : (0 : ℚ) ≤ jsRem r 360 + 360 := by linarith [h0.1]
      exact jsRem_nonneg_bounds _ 360 h2 h360

/-- The pointer angle always lands in the interval from 0 inclusive to
360 exclusive. -/
theorem pointerAngle_bounds (r : ℚ) : 0 ≤ pointerAngle r ∧ pointerAngle r < 360 := by
  have h360 : (0 : ℚ) < 360 := by norm_num
  have hn := normalize360_bounds r
  have h2 : (0 : ℚ) ≤ 360 - normalize360 r := by linarith [hn.2]
  exact jsRem_nonneg_bounds _ 360 h2 h360

/-- Chains may be concatenated when the second part starts where the
first part's angles stop accumulating. -/
theorem segChain_append (l1 l2 : List SegAngle) : ∀ c : ℚ,
    segChain c l1 → segChain (c + sumAngles l1) l2 → segChain c (l1 ++ l2) := by
  induction l1 with
  | nil =>
    intro c _ h2
    simpa [sumAngles] using h2
  | cons s rest ih =>
    intro c h1 h2
    obtain ⟨hs, he, hrest⟩ := h1
    refine ⟨hs, he, ih s.«end» hrest ?_⟩
    have : s.«end» + sumAngles rest = c + sumAngles (s :: rest) := by
      rw [he]
      simp [sumAngles]
      ring
    rw [this]
    exact h2

/-- In a chain, each segment's end equals the next segment's start. -/
theorem segChain_contig (l : List SegAngle) : ∀ (c : ℚ), segChain c l →
    ∀ i, i + 1 < l.length → (l.getD i dSeg).«end» = (l.getD (i + 1) dSeg).start := by
  induction l with
  | nil => intro c _ i hi; simp at hi
  | cons s rest ih =>
    intro c hc i hi
    obtain ⟨hs, he, hrest⟩ := hc
    cases i with
    | zero =>
      simp only [List.length_cons] at hi
      obtain ⟨s2, rest2, hrw⟩ := List.exists_cons_of_ne_nil
        (List.ne_nil_of_length_pos (by omega) : rest ≠ [])
      subst hrw
      obtain ⟨hs2, _, _⟩ := hrest
      simp [hs2]
    | succ j =>
      simp only [List.length_cons] at hi
      simpa using ih s.«end» hrest j (by omega)

/-- In a chain, the first segment starts at the chain origin. -/
theorem segChain_head_start (l : List SegAngle) (c : ℚ) (h : segChain c l)
    (hne : l ≠ []) : (l.getD 0 dSeg).start = c := by
  obtain ⟨s, rest, hrw⟩ := List.exists_cons_of_ne_nil hne
  subst hrw
  exact h.1

/-- In a chain, the last segment ends at the origin plus the angle sum. -/
theorem segChain_lastEnd (l : List SegAngle) : ∀ (c : ℚ), segChain c l → l ≠ [] →
    (l.getD (l.length - 1) dSeg).«end» = c + sumAngles l := by
  induction l with
  | nil => intro c _ h; simp at h
  | cons s rest ih =>
    intro c hc _
    obtain ⟨_, he, hrest⟩ := hc
    cases rest with
    | nil => simpa [sumAngles] using he
    | cons s2 rest2 =>
      have h2 := ih s.«end» hrest (by simp)
      simp only [List.length_cons] at h2 ⊢
      have hidx : s2 :: rest2 ≠ [] := by simp
      calc ((s :: s2 :: rest2).getD (rest2.length + 1 + 1 - 1) dSeg).«end»
          = ((s2 :: rest2).getD (rest2.length + 1 - 1) dSeg).«end» := by
            simp
        _ = s.«end» + sumAngles (s2 :: rest2) := h2
        _ = c + sumAngles (s :: s2 :: rest2) := by
            rw [he]; simp [sumAngles]; ring

/-- The weighted loop builds a well-formed chain from its start angle. -/
theorem buildWeighted_chain (d : ℚ) (l : List WheelItem) : ∀ c : ℚ,
    segChain c (buildWeighted d c l) := by
  induction l with
  | nil => intro c; trivial
  | cons it rest ih =>
    intro c
    exact ⟨rfl, rfl, ih _⟩

/-- The weighted loop produces one segment per item. -/
theorem buildWeighted_length (d : ℚ) (l : List WheelItem) : ∀ c : ℚ,
    (buildWeighted d c l).length = l.length := by
  induction l with
  | nil => intro c; rfl
  | cons it rest ih => intro c; simp [buildWeighted, ih]

/-- The angles of the weighted loop sum to (total weight) / denom * 360. -/
theorem sumAngles_buildWeighted (d : ℚ) (l : List WheelItem) : ∀ c : ℚ,
    sumAngles (buildWeighted d c l) = (l.map weightOrZero).sum / d * 360 := by
  induction l with
  | nil => intro c; simp [sumAngles, buildWeighted]
  | cons it rest ih =>
    intro c
    simp only [buildWeighted, sumAngles, List.map_cons, List.sum_cons]
    rw [show ((buildWeighted d (c + weightOrZero it / d * 360) rest).map SegAngle.angle).sum
        = sumAngles (buildWeighted d (c + weightOrZero it / d * 360) rest) from rfl, ih]
    ring

/-- The reduce in getSegmentAngles computes the sum of the item weights. -/
theorem totalPercentage_eq_sum (items : List WheelItem) :
    totalPercentage items = (items.map weightOrZero).sum := by
  have h : ∀ (l : List WheelItem) (s : ℚ),
      l.foldl (fun a it => a + weightOrZero it) s = s + (l.map weightOrZero).sum := by
    intro l
    induction l with
    | nil => intro s; simp
    | cons it rest ih => intro s; simp [ih]; ring
  simpa using h items 0

/-- The angle of the i-th weighted segment is the i-th item's weight share. -/
theorem buildWeighted_getD_angle (d : ℚ) (l : List WheelItem) : ∀ (c : ℚ) (i : ℕ),
    i < l.length →
    ((buildWeighted d c l).getD i dSeg).angle = weightOrZero (l.getD i dItem) / d * 360 := by
  induction l with
  | nil => intro c i hi; simp at hi
  | cons it rest ih =>
    intro c i hi
    cases i with
    | zero => simp [buildWeighted]
    | succ j =>
      simp only [List.length_cons] at hi
      simpa [buildWeighted] using ih _ j (by omega)

/-- Every weighted segment's end is its start plus its angle. -/
theorem buildWeighted_end_eq (d : ℚ) (l : List WheelItem) : ∀ (c : ℚ) (s : SegAngle),
    s ∈ buildWeighted d c l → s.«end» = s.start + s.angle := by
  induction l with
  | nil => intro c s hs; simp [buildWeighted] at hs
  | cons it rest ih =>
    intro c s hs
    simp only [buildWeighted, List.mem_cons] at hs
    rcases hs with h | h
    · subst h; rfl
    · exact ih _ s h

/-- The equal-mode segment list of getSegmentAngles. -/
theorem getSegmentAngles_of_ne_weighted (items : List WheelItem) (mode : WheelMode)
    (h : mode ≠ .weighted) :
    getSegmentAngles items mode =
      (List.range items.length).map fun (index : ℕ) =>
        ⟨(index : ℚ) * (360 / (items.length : ℚ)), 360 / (items.length : ℚ),
          ((index : ℚ) + 1) * (360 / (items.length : ℚ))⟩ := by
  rw [getSegmentAngles, if_neg h]

/-- Angle sum of n equal-width segments. -/
theorem equal_segs_sum (a : ℚ) (n : ℕ) :
    sumAngles ((List.range n).map fun (index : ℕ) =>
      (⟨(index : ℚ) * a, a, ((index : ℚ) + 1) * a⟩ : SegAngle)) = (n : ℚ) * a := by
  induction n with
  | zero => simp [sumAngles]
  | succ k ihk =>
    rw [List.range_succ, List.map_append]
    simp only [sumAngles, List.map_append, List.sum_append] at ihk ⊢
    rw [ihk]
    simp [List.map_map, Function.comp]
    ring

/-- Equal-width segments anchored at multiples of a form a chain. -/
theorem equal_segs_chain (a : ℚ) (n : ℕ) :
    segChain 0 ((List.range n).map fun (index : ℕ) =>
      (⟨(index : ℚ) * a, a, ((index : ℚ) + 1) * a⟩ : SegAngle)) := by
  induction n with
  | zero => trivial
  | succ m ih =>
    rw [List.range_succ, List.map_append]
    refine segChain_append _ _ 0 ih ?_
    rw [equal_segs_sum]
    refine ⟨by ring, by ring, trivial⟩

/-- Claim C1, as stated, is false: for the one-item list with weight 0 in
weighted mode, getSegmentAngles returns a single zero-width segment, so
the angles sum to 0 (not 360 within 1e-6) and the last end is 0, not 360. -/
theorem C1_counterexample :
    sumAngles (getSegmentAngles [⟨"a", "A", some 0, none⟩] .weighted) = 0 ∧
    ¬ (|sumAngles (getSegmentAngles [⟨"a", "A", some 0, none⟩] .weighted) - 360| ≤
        1 / 1000000) ∧
    ((getSegmentAngles [⟨"a", "A", some 0, none⟩] .weighted).getD
      ((getSegmentAngles [⟨"a", "A", some 0, none⟩] .weighted).length - 1) dSeg).«end» ≠
      360 := by
  have h : getSegmentAngles [⟨"a", "A", some 0, none⟩] .weighted = [⟨0, 0, 0⟩] := by
    norm_num [getSegmentAngles, buildWeighted, totalPercentage, weightOrZero]
  rw [h]
  norm_num [sumAngles, dSeg]

/-- Claim C1 (amended): for every non-empty item list, getSegmentAngles
returns contiguous segments starting at 0; in non-weighted mode the angles
sum to exactly 360 and the last end is 360; in weighted mode the angles
sum to 360 * T / max T 1 for T the total weight (so exactly 360 whenever
T is at least 1, but not when T is below 1, e.g. all-zero weights). -/
theorem C1_prop (items : List WheelItem) (mode : WheelMode) (hne : items ≠ []) :
    (∀ i < (getSegmentAngles items mode).length,
      i + 1 < (getSegmentAngles items mode).length →
      ((getSegmentAngles items mode).getD i dSeg).«end» =
        ((getSegmentAngles items mode).getD (i + 1) dSeg).start) ∧
    ((getSegmentAngles items mode).getD 0 dSeg).start = 0 ∧
    (mode ≠ .weighted →
      sumAngles (getSegmentAngles items mode) = 360 ∧
      ((getSegmentAngles items mode).getD
        ((getSegmentAngles items mode).length - 1) dSeg).«end» = 360) ∧
    (mode = .weighted →
      sumAngles (getSegmentAngles items mode) =
        360 * totalPercentage items / max (totalPercentage items) 1 ∧
      ((getSegmentAngles items mode).getD
        ((getSegmentAngles items mode).length - 1) dSeg).«end» =
        sumAngles (getSegmentAngles items mode) ∧
      (1 ≤ totalPercentage items → sumAngles (getSegmentAngles items mode) = 360)) := by
  have hlenpos : 0 < items.length := List.length_pos.mpr hne
  by_cases hw : mode = .weighted
  · subst hw
    have hdef : getSegmentAngles items .weighted =
        buildWeighted (max (totalPercentage items) 1) 0 items := by
      rw [getSegmentAngles, if_pos rfl]
    have hchain := buildWeighted_chain (max (totalPercentage items) 1) items 0
    have hlen := buildWeighted_length (max (totalPercentage items) 1) items 0
    have hnn : buildWeighted (max (totalPercentage items) 1) 0 items ≠ [] := by
      apply List.ne_nil_of_length_pos
      rw [hlen]
      exact hlenpos
    have hsum : sumAngles (getSegmentAngles items .weighted) =
        360 * totalPercentage items / max (totalPercentage items) 1 := by
      rw [hdef, sumAngles_buildWeighted, ← totalPercentage_eq_sum]
      ring
    refine ⟨?_, ?_, fun h => absurd rfl h, fun _ => ⟨hsum, ?_, ?_⟩⟩
    · intro i _ hi1
      rw [hdef] at hi1 ⊢
      exact segChain_contig _ 0 hchain i hi1
    · rw [hdef]
      exact segChain_head_start _ 0 hchain hnn
    · rw [hdef]
      have := segChain_lastEnd _ 0 hchain hnn
      rw [this, ← hdef]
      ring
    · intro hT
      rw [hsum, max_eq_left hT]
      have hT0 : totalPercentage items ≠ 0 := by linarith
      field_simp
  · have hdef := getSegmentAngles_of_ne_weighted items mode hw
    set a : ℚ := 360 / (items.length : ℚ) with ha
    have hchain := equal_segs_chain a items.length
    have hnz : (items.length : ℚ) ≠ 0 := by
      exact_mod_cast Nat.pos_iff_ne_zero.mp hlenpos
    have hsum : sumAngles (getSegmentAngles items mode) = 360 := by
      rw [hdef, equal_segs_sum, ha]
      field_simp
    have hnn : ((List.range items.length).map fun (index : ℕ) =>
        (⟨(index : ℚ) * a, a, ((index : ℚ) + 1) * a⟩ : SegAngle)) ≠ [] := by
      apply List.ne_nil_of_length_pos
      simpa using hlenpos
    refine ⟨?_, ?_, fun _ => ⟨hsum, ?_⟩, fun h => absurd h hw⟩
    · intro i _ hi1
      rw [hdef] at hi1 ⊢
      exact segChain_contig _ 0 hchain i hi1
    · rw [hdef]
      exact segChain_head_start _ 0 hchain hnn
    · rw [hdef]
      have := segChain_lastEnd _ 0 hchain hnn
      rw [this, ← hdef, hsum]
      ring

/-- Witness for C1_prop at a concrete weighted input with total weight 2. -/
theorem C1_witness :
    ([⟨"a", "A", some 2, none⟩] : List WheelItem) ≠ [] ∧
    sumAngles (getSegmentAngles [⟨"a", "A", some 2, none⟩] .weighted) = 360 :=
  ⟨by simp, ((C1_prop [⟨"a", "A", some 2, none⟩] .weighted (by simp)).2.2.2 rfl).2.2
    (by norm_num [totalPercentage, weightOrZero])⟩

/-- If no segment matches, the scan returns no index. -/
theorem findMatchIdx_eq_none (p : ℚ) (segs : List SegAngle)
    (h : ∀ s ∈ segs, segMatch p s = false) : findMatchIdx p segs = none := by
  induction segs with
  | nil => rfl
  | cons s rest ih =>
    rw [findMatchIdx, if_neg (by simp [h s (by simp)]), ih]
    · rfl
    · intro s2 hs2
      exact h s2 (by simp [hs2])

/-- The scan returns the first matching index. -/
theorem findMatchIdx_eq_some_of (p : ℚ) (segs : List SegAngle) : ∀ (m : ℕ),
    m < segs.length →
    (∀ k < m, segMatch p (segs.getD k dSeg) = false) →
    segMatch p (segs.getD m dSeg) = true →
    findMatchIdx p segs = some m := by
  induction segs with
  | nil => intro m hm _ _; simp at hm
  | cons s rest ih =>
    intro m hm hbefore hat
    cases m with
    | zero =>
      rw [List.getD_cons_zero] at hat
      rw [findMatchIdx, if_pos hat]
    | succ j =>
      have hs : segMatch p s = false := by
        have := hbefore 0 (by omega)
        rwa [List.getD_cons_zero] at this
      rw [findMatchIdx, if_neg (by rw [hs]; exact Bool.false_ne_true)]
      have := ih j (by simpa using hm)
        (fun k hk => by
          have := hbefore (k + 1) (by omega)
          rwa [List.getD_cons_succ] at this)
        (by rwa [List.getD_cons_succ] at hat)
      rw [this]
      rfl

/-- A returned index is in range and its segment matches. -/
theorem findMatchIdx_some_facts (p : ℚ) (segs : List SegAngle) : ∀ (i : ℕ),
    findMatchIdx p segs = some i →
    i < segs.length ∧ segMatch p (segs.getD i dSeg) = true := by
  induction segs with
  | nil => intro i h; simp [findMatchIdx] at h
  | cons s rest ih =>
    intro i h
    rw [findMatchIdx] at h
    by_cases hs : segMatch p s = true
    · rw [if_pos hs] at h
      cases h
      exact ⟨by simp, by simpa using hs⟩
    · rw [if_neg hs] at h
      cases hrec : findMatchIdx p rest with
      | none => rw [hrec] at h; simp at h
      | some j =>
        rw [hrec] at h
        have hij : i = j + 1 := by
          have : some (j + 1) = some i := h
          exact (Option.some.injEq _ _).mp this.symm
        subst hij
        obtain ⟨h1, h2⟩ := ih j hrec
        exact ⟨by simpa using h1, by simpa using h2⟩

/-- If the segments form a chain whose angles cover the pointer, the scan
finds a matching segment. -/
theorem findMatchIdx_isSome_of_cover (p : ℚ) (segs : List SegAngle) : ∀ (c : ℚ),
    segChain c segs → c ≤ p → p < c + sumAngles segs →
    (findMatchIdx p segs).isSome = true := by
  induction segs with
  | nil =>
    intro c _ h1 h2
    simp [sumAngles] at h2
    linarith
  | cons s rest ih =>
    intro c hchain h1 h2
    obtain ⟨hs, he, hrest⟩ := hchain
    by_cases hm : p < s.«end»
    · rw [findMatchIdx,
        if_pos (by simp only [segMatch, decide_eq_true_eq]; rw [hs]; exact ⟨h1, hm⟩)]
      rfl
    · push_neg at hm
      rw [findMatchIdx, if_neg (by
        simp only [segMatch, decide_eq_true_eq, not_and, not_lt]
        intro _
        exact hm)]
      have hcov : p < s.«end» + sumAngles rest := by
        have heq : c + sumAngles (s :: rest) = s.«end» + sumAngles rest := by
          rw [he]; simp [sumAngles]; ring
        linarith [heq ▸ h2]
      have hsome := ih s.«end» hrest hm hcov
      cases hrec : findMatchIdx p rest with
      | none => rw [hrec] at hsome; simp at hsome
      | some j => rfl

/-- Starts are monotone along a contiguous list of non-negative-width
segments (stated over indexed getD access). -/
theorem starts_mono (segs : List SegAngle)
    (hcontig : ∀ i < segs.length, i + 1 < segs.length →
      (segs.getD i dSeg).«end» = (segs.getD (i + 1) dSeg).start)
    (hmono : ∀ i < segs.length, (segs.getD i dSeg).start ≤ (segs.getD i dSeg).«end») :
    ∀ a b, a ≤ b → b < segs.length →
      (segs.getD a dSeg).start ≤ (segs.getD b dSeg).start := by
  intro a b hab hb
  induction b, hab using Nat.le_induction with
  | base => exact le_refl _
  | succ m ham ih =>
    have hm : m < segs.length := by omega
    have h1 := ih (by omega)
    have h2 := hmono m hm
    have h3 := hcontig m hm (by omega)
    linarith [h1, h2, h3.le, h3.ge]

/-- Claim C5: for every rotation and segment list, when no segment's
half-open interval contains the pointer angle, determineWinningSegment
returns the last item of the item list (as a total function it raises
no error; for an empty item list both the fallback items[length - 1]
and the JavaScript undefined are modelled by none). -/
theorem C5_prop (segs : List SegAngle) (items : List WheelItem) (r : ℚ)
    (hnomatch : ∀ s ∈ segs,
      ¬ (s.start ≤ pointerAngle r ∧ pointerAngle r < s.«end»)) :
    determineWinningSegment segs items r = items.getLast? := by
  rw [determineWinningSegment, resolveAtPointer, findMatchIdx_eq_none]
  intro s hs
  simp only [segMatch, decide_eq_false_iff_not]
  exact hnomatch s hs

/-- Witness for C5_prop: a degenerate all-zero segment list never
matches, and the resolver falls back to the last item B. -/
theorem C5_witness :
    (∀ s ∈ ([⟨0, 0, 0⟩] : List SegAngle),
      ¬ (s.start ≤ pointerAngle 0 ∧ pointerAngle 0 < s.«end»)) ∧
    determineWinningSegment [⟨0, 0, 0⟩]
      [⟨"a", "A", none, none⟩, ⟨"b", "B", none, none⟩] 0 =
      some ⟨"b", "B", none, none⟩ := by
  have hp : pointerAngle 0 = 0 := by
    have h1 : jsRem 0 360 = 0 := by norm_num [jsRem]
    have h2 : normalize360 0 = 0 := by rw [normalize360, h1]; norm_num [jsRem]
    rw [pointerAngle, h2]; norm_num [jsRem]
  have hno : ∀ s ∈ ([⟨0, 0, 0⟩] : List SegAngle),
      ¬ (s.start ≤ pointerAngle 0 ∧ pointerAngle 0 < s.«end») := by
    intro s hs
    simp at hs
    subst hs
    rw [hp]
    simp
  refine ⟨hno, ?_⟩
  rw [C5_prop _ _ _ hno]
  rfl

/-- Claim C8: segments are half-open intervals, so a pointer angle lying
exactly on the shared boundary of segment j and segment j + 1 resolves to
the segment that starts there (index j + 1), never the one that ends
there: the scan returns index j + 1 and the resolver returns items[j + 1]. -/
theorem C8_prop (segs : List SegAngle) (items : List WheelItem) (p : ℚ) (j : ℕ)
    (hlen : j + 1 < segs.length)
    (hcontig : ∀ i < segs.length, i + 1 < segs.length →
      (segs.getD i dSeg).«end» = (segs.getD (i + 1) dSeg).start)
    (hwidths : ∀ i < segs.length, (segs.getD i dSeg).start ≤ (segs.getD i dSeg).«end»)
    (hp : p = (segs.getD (j + 1) dSeg).start)
    (hpos : (segs.getD (j + 1) dSeg).start < (segs.getD (j + 1) dSeg).«end») :
    findMatchIdx p segs = some (j + 1) ∧
    resolveAtPointer segs items p = items.get? (j + 1) := by
  have hfind : findMatchIdx p segs = some (j + 1) := by
    apply findMatchIdx_eq_some_of p segs (j + 1) hlen
    · intro k hk
      have hk1 : k < segs.length := by omega
      have hke : (segs.getD k dSeg).«end» = (segs.getD (k + 1) dSeg).start :=
        hcontig k hk1 (by omega)
      have hks : (segs.getD (k + 1) dSeg).start ≤ (segs.getD (j + 1) dSeg).start :=
        starts_mono segs hcontig hwidths (k + 1) (j + 1) (by omega) hlen
      have hle : (segs.getD k dSeg).«end» ≤ p := by rw [hp]; linarith [hke.le]
      simp only [segMatch, decide_eq_false_iff_not, not_and, not_lt]
      intro _
      exact hle
    · simp only [segMatch, decide_eq_true_eq]
      exact ⟨le_of_eq hp.symm, by rw [hp]; exact hpos⟩
  exact ⟨hfind, by rw [resolveAtPointer, hfind]⟩

/-- Witness for C8_prop on the segment list of the specification's
boundary example: the pointer angle 40 between segments 0 and 1 resolves
to index 1. -/
theorem C8_witness :
    findMatchIdx 40 [⟨0, 40, 40⟩, ⟨40, 30, 70⟩, ⟨70, 290, 360⟩] = some 1 ∧
    resolveAtPointer [⟨0, 40, 40⟩, ⟨40, 30, 70⟩, ⟨70, 290, 360⟩]
      [⟨"a", "A", none, none⟩, ⟨"b", "B", none, none⟩, ⟨"c", "C", none, none⟩] 40 =
      ([⟨"a", "A", none, none⟩, ⟨"b", "B", none, none⟩,
        ⟨"c", "C", none, none⟩] : List WheelItem).get? 1 :=
  C8_prop [⟨0, 40, 40⟩, ⟨40, 30, 70⟩, ⟨70, 290, 360⟩]
    [⟨"a", "A", none, none⟩, ⟨"b", "B", none, none⟩, ⟨"c", "C", none, none⟩] 40 0
    (by norm_num)
    (by
      intro i hi hi1
      simp only [List.length_cons, List.length_nil] at hi hi1
      interval_cases i <;>
        first
        | omega
        | norm_num [dSeg, List.getD_cons_zero, List.getD_cons_succ])
    (by
      intro i hi
      simp only [List.length_cons, List.length_nil] at hi
      interval_cases i <;>
        first
        | omega
        | norm_num [dSeg, List.getD_cons_zero, List.getD_cons_succ])
    (by norm_num [dSeg, List.getD_cons_zero, List.getD_cons_succ])
    (by norm_num [dSeg, List.getD_cons_zero, List.getD_cons_succ])

/-- Claim C4, as stated, is false in both halves: the direct weighted
pick treats an explicit weight of 0 as the default weight 1 (JavaScript
|| coalescing) and returns the weight-0 item A on the draw 0; and for a
one-item weighted list of total weight 0 the angle lookup falls through
to the items[length - 1] fallback and also returns the weight-0 item. -/
theorem C4_counterexample :
    getWeightedWinner [⟨"a", "A", some 0, none⟩, ⟨"b", "B", some 1, none⟩] 0 =
      some ⟨"a", "A", some 0, none⟩ ∧
    (⟨"a", "A", some 0, none⟩ : WheelItem).weight = some 0 ∧
    determineWinningSegment (getSegmentAngles [⟨"a", "A", some 0, none⟩] .weighted)
      [⟨"a", "A", some 0, none⟩] 0 = some ⟨"a", "A", some 0, none⟩ := by
  refine ⟨?_, rfl, ?_⟩
  · norm_num [getWeightedWinner, gwwLoop, canvasTotalWeight, weightOrOne]
  · have hseg : getSegmentAngles [⟨"a", "A", some 0, none⟩] .weighted = [⟨0, 0, 0⟩] := by
      norm_num [getSegmentAngles, buildWeighted, totalPercentage, weightOrZero]
    have hp : pointerAngle 0 = 0 := by
      have h1 : jsRem 0 360 = 0 := by norm_num [jsRem]
      have h2 : normalize360 0 = 0 := by rw [normalize360, h1]; norm_num [jsRem]
      rw [pointerAngle, h2]; norm_num [jsRem]
    rw [hseg, determineWinningSegment, resolveAtPointer, hp]
    norm_num [findMatchIdx, segMatch]

/-- Claim C4 (amended): when the total weight is at least 1, the weighted
angle lookup never returns an item whose effective weight (weight || 0)
is 0 — zero-width segments cannot contain the pointer and the fallback is
unreachable because the segments then cover the full circle; the
remaining cases (total weight below 1 reaching the fallback, and the
direct weighted pick defaulting weight 0 to 1) can return weight-0 items
as the counterexample shows. -/
theorem C4_prop (items : List WheelItem) (r : ℚ) (it : WheelItem)
    (hT : 1 ≤ totalPercentage items)
    (hres : determineWinningSegment (getSegmentAngles items .weighted) items r =
      some it) :
    weightOrZero it ≠ 0 := by
  set d := max (totalPercentage items) 1 with hddef
  have hd : d = totalPercentage items := max_eq_left hT
  have hdpos : (0 : ℚ) < d := by rw [hd]; linarith
  have hdef : getSegmentAngles items .weighted = buildWeighted d 0 items := by
    rw [getSegmentAngles, if_pos rfl]
  have hchain := buildWeighted_chain d items 0
  have hsum : sumAngles (buildWeighted d 0 items) = 360 := by
    rw [sumAngles_buildWeighted, ← totalPercentage_eq_sum, ← hd]
    field_simp
  have hp := pointerAngle_bounds r
  have hcover := findMatchIdx_isSome_of_cover (pointerAngle r)
    (buildWeighted d 0 items) 0 hchain hp.1 (by rw [hsum]; linarith [hp.2])
  obtain ⟨i, hi⟩ := Option.isSome_iff_exists.mp hcover
  obtain ⟨hilt, hmatch⟩ := findMatchIdx_some_facts _ _ i hi
  rw [determineWinningSegment, resolveAtPointer, hdef, hi] at hres
  have hlen := buildWeighted_length d items 0
  have hiitems : i < items.length := by rw [← hlen]; exact hilt
  have hang := buildWeighted_getD_angle d items 0 i hiitems
  have hmem : (buildWeighted d 0 items).getD i dSeg ∈ buildWeighted d 0 items := by
    rw [List.getD_eq_getElem?_getD, List.getElem?_eq_getElem hilt]
    exact List.getElem_mem hilt
  have hee := buildWeighted_end_eq d items 0 _ hmem
  simp only [segMatch, decide_eq_true_eq] at hmatch
  have hpos : 0 < ((buildWeighted d 0 items).getD i dSeg).angle := by
    linarith [hmatch.1, hmatch.2]
  rw [hang] at hpos
  have hw : 0 < weightOrZero (items.getD i dItem) := by
    by_contra hw0
    push_neg at hw0
    have hnp : weightOrZero (items.getD i dItem) / d * 360 ≤ 0 := by
      apply mul_nonpos_of_nonpos_of_nonneg
      · exact div_nonpos_of_nonpos_of_nonneg hw0 hdpos.le
      · norm_num
    linarith
  have hq : items.get? i = some (items.getD i dItem) := by
    rw [List.get?_eq_getElem?, List.getElem?_eq_getElem hiitems]
    rw [List.getD_eq_getElem?_getD, List.getElem?_eq_getElem hiitems]
    rfl
  have hres2 : items.get? i = some it := hres
  rw [hq] at hres2
  have hit : items.getD i dItem = it := (Option.some.injEq _ _).mp hres2
  rw [← hit]
  exact ne_of_gt hw

/-- Witness for C4_prop: with weights 0 and 1 the total is 1 and the
rotation 90 resolves to the weight-1 item B, whose weight is nonzero. -/
theorem C4_witness :
    1 ≤ totalPercentage [⟨"a", "A", some 0, none⟩, ⟨"b", "B", some 1, none⟩] ∧
    determineWinningSegment
      (getSegmentAngles [⟨"a", "A", some 0, none⟩, ⟨"b", "B", some 1, none⟩] .weighted)
      [⟨"a", "A", some 0, none⟩, ⟨"b", "B", some 1, none⟩] 90 =
      some ⟨"b", "B", some 1, none⟩ ∧
    weightOrZero ⟨"b", "B", some 1, none⟩ ≠ 0 := by
  have hT : (1 : ℚ) ≤
      totalPercentage [⟨"a", "A", some 0, none⟩, ⟨"b", "B", some 1, none⟩] := by
    norm_num [totalPercentage, weightOrZero]
  have hseg : getSegmentAngles
      [⟨"a", "A", some 0, none⟩, ⟨"b", "B", some 1, none⟩] .weighted =
      [⟨0, 0, 0⟩, ⟨0, 360, 360⟩] := by
    norm_num [getSegmentAngles, buildWeighted, totalPercentage, weightOrZero]
  have hp : pointerAngle 90 = 270 := by
    have h1 : jsRem 90 360 = 90 := by norm_num [jsRem]
    have h2 : normalize360 90 = 90 := by rw [normalize360, h1]; norm_num [jsRem]
    rw [pointerAngle, h2]; norm_num [jsRem]
  have hres : determineWinningSegment
      (getSegmentAngles [⟨"a", "A", some 0, none⟩, ⟨"b", "B", some 1, none⟩] .weighted)
      [⟨"a", "A", some 0, none⟩, ⟨"b", "B", some 1, none⟩] 90 =
      some ⟨"b", "B", some 1, none⟩ := by
    rw [hseg, determineWinningSegment, resolveAtPointer, hp]
    norm_num [findMatchIdx, segMatch]
  exact ⟨hT, hres,
    C4_prop [⟨"a", "A", some 0, none⟩, ⟨"b", "B", some 1, none⟩] 90
      ⟨"b", "B", some 1, none⟩ hT hres⟩

/-- Every weighted segment's angle is some item's weight share. -/
theorem buildWeighted_angle_mem (d : ℚ) (l : List WheelItem) : ∀ (c : ℚ) (s : SegAngle),
    s ∈ buildWeighted d c l → ∃ it ∈ l, s.angle = weightOrZero it / d * 360 := by
  induction l with
  | nil => intro c s hs; simp [buildWeighted] at hs
  | cons it rest ih =>
    intro c s hs
    simp only [buildWeighted, List.mem_cons] at hs
    rcases hs with h | h
    · exact ⟨it, by simp, by rw [h]⟩
    · obtain ⟨it0, hmem, heq⟩ := ih _ s h
      exact ⟨it0, by simp [hmem], heq⟩

/-- A list of non-negative rationals with zero sum is all zeros. -/
theorem all_zero_of_sum_zero (l : List ℚ) : (∀ x ∈ l, 0 ≤ x) → l.sum = 0 →
    ∀ x ∈ l, x = 0 := by
  induction l with
  | nil => intro _ _ x hx; simp at hx
  | cons y rest ih =>
    intro hnn hsum x hx
    have hy : 0 ≤ y := hnn y (by simp)
    have hrest : 0 ≤ rest.sum := List.sum_nonneg (fun z hz => hnn z (by simp [hz]))
    simp only [List.sum_cons] at hsum
    have hy0 : y = 0 := by linarith
    have hr0 : rest.sum = 0 := by linarith
    rcases List.mem_cons.mp hx with h | h
    · rw [h, hy0]
    · exact ih (fun z hz => hnn z (by simp [hz])) hr0 x h

/-- The canvas reduce computes the sum of the defaulted weights. -/
theorem canvasTotalWeight_eq_sum (items : List WheelItem) :
    canvasTotalWeight items = (items.map weightOrOne).sum := by
  have h : ∀ (l : List WheelItem) (s : ℚ),
      l.foldl (fun a it => a + weightOrOne it) s = s + (l.map weightOrOne).sum := by
    intro l
    induction l with
    | nil => intro s; simp
    | cons it rest ih => intro s; simp [ih]; ring
  simpa using h items 0

/-- An item of effective weight (weight || 0) zero has default weight
(weight || 1) one. -/
theorem weightOrOne_of_weightOrZero_zero (it : WheelItem)
    (h : weightOrZero it = 0) : weightOrOne it = 1 := by
  unfold weightOrZero at h
  unfold weightOrOne
  cases hw : it.weight with
  | none => rfl
  | some x =>
    rw [hw] at h
    simp at h
    simp [h]

/-- A list whose entries are all 1 sums to its length. -/
theorem sum_of_all_ones (l : List ℚ) : (∀ y ∈ l, y = 1) → l.sum = (l.length : ℚ) := by
  induction l with
  | nil => intro _; simp
  | cons y rest ih =>
    intro h
    simp only [List.sum_cons, List.length_cons]
    rw [h y (by simp), ih (fun z hz => h z (by simp [hz]))]
    push_cast
    ring

/-- Claim C9: when the item weights sum to 0 (given non-negative weights),
the weighted segment builder substitutes the safe denominator
max(sum, 1) = 1, never 0, and still returns one (degenerate, zero-width)
segment per item without failing; and the WheelCanvas resolver's own
denominator, the sum of the (weight || 1) defaults, is at least 1 for a
non-empty list, so that division never divides by zero either. -/
theorem C9_prop (items : List WheelItem)
    (hnn : ∀ x ∈ items, 0 ≤ weightOrZero x)
    (hsum : totalPercentage items = 0) :
    max (totalPercentage items) 1 = 1 ∧
    (getSegmentAngles items .weighted).length = items.length ∧
    (∀ s ∈ getSegmentAngles items .weighted, s.start = s.«end» ∧ s.angle = 0) ∧
    (items ≠ [] → 1 ≤ canvasTotalWeight items) := by
  have hmax : max (totalPercentage items) 1 = 1 := by
    rw [hsum]; norm_num
  have hdef : getSegmentAngles items .weighted =
      buildWeighted (max (totalPercentage items) 1) 0 items := by
    rw [getSegmentAngles, if_pos rfl]
  have hzero : ∀ x ∈ items, weightOrZero x = 0 := by
    intro x hx
    have hs : (items.map weightOrZero).sum = 0 := by
      rw [← totalPercentage_eq_sum]; exact hsum
    have := all_zero_of_sum_zero (items.map weightOrZero)
      (fun y hy => by
        obtain ⟨z, hz, rfl⟩ := List.mem_map.mp hy
        exact hnn z hz)
      hs (weightOrZero x) (List.mem_map_of_mem _ hx)
    exact this
  refine ⟨hmax, ?_, ?_, ?_⟩
  · rw [hdef]
    exact buildWeighted_length _ items 0
  · intro s hs
    rw [hdef] at hs
    obtain ⟨it, hmem, hangle⟩ := buildWeighted_angle_mem _ items 0 s hs
    have ha : s.angle = 0 := by
      rw [hangle, hzero it hmem]
      norm_num
    have he := buildWeighted_end_eq _ items 0 s hs
    exact ⟨by rw [he, ha]; ring, ha⟩
  · intro hne
    rw [canvasTotalWeight_eq_sum]
    have hone : ∀ y ∈ items.map weightOrOne, y = 1 := by
      intro y hy
      obtain ⟨z, hz, rfl⟩ := List.mem_map.mp hy
      exact weightOrOne_of_weightOrZero_zero z (hzero z hz)
    rw [sum_of_all_ones _ hone]
    simp only [List.length_map]
    have : 1 ≤ items.length := List.length_pos.mpr hne
    exact_mod_cast this

/-- Witness for C9_prop at the one-item all-zero-weight list. -/
theorem C9_witness :
    (∀ x ∈ ([⟨"a", "A", some 0, none⟩] : List WheelItem), 0 ≤ weightOrZero x) ∧
    totalPercentage [⟨"a", "A", some 0, none⟩] = 0 ∧
    max (totalPercentage [⟨"a", "A", some 0, none⟩]) 1 = 1 ∧
    (([⟨"a", "A", some 0, none⟩] : List WheelItem) ≠ [] →
      1 ≤ canvasTotalWeight [⟨"a", "A", some 0, none⟩]) := by
  have h1 : ∀ x ∈ ([⟨"a", "A", some 0, none⟩] : List WheelItem), 0 ≤ weightOrZero x := by
    intro x hx
    simp at hx
    subst hx
    norm_num [weightOrZero]
  have h2 : totalPercentage [⟨"a", "A", some 0, none⟩] = 0 := by
    norm_num [totalPercentage, weightOrZero]
  have h := C9_prop [⟨"a", "A", some 0, none⟩] h1 h2
  exact ⟨h1, h2, h.1, h.2.2.2⟩

/-- Enumeration of all 24 shuffle orders of the four items: the
deterministic partitioner and every tie-break variant separate a and b. -/
theorem abcd_all_separated :
    (itemsABCD.permutations'.all fun sh =>
      teamsSeparated (createTeams itemsABCD sh 2 [avoidAB]) "a" "b" &&
      ((runND [avoidAB] sh 2).all fun ts => teamsSeparated ts "a" "b")) = true := by
  decide

/-- Claim C2: for the four items A B C D, two teams and the single
constraint avoid(a, b), every run of the partitioner — every shuffle
order, both with the source's deterministic first-minimum tie-break and
with every arbitrary tie-break among minimum-size teams — produces a
partition in which a and b are on different teams. -/
theorem C2_prop (shuffled : List WheelItem) (h : shuffled.Perm itemsABCD) :
    teamsSeparated (createTeams itemsABCD shuffled 2 [avoidAB]) "a" "b" = true ∧
    ∀ ts ∈ runND [avoidAB] shuffled 2, teamsSeparated ts "a" "b" = true := by
  have hm : shuffled ∈ itemsABCD.permutations' := List.mem_permutations'.mpr h
  have hall := List.all_eq_true.mp abcd_all_separated shuffled hm
  rw [Bool.and_eq_true] at hall
  refine ⟨hall.1, ?_⟩
  intro ts hts
  exact List.all_eq_true.mp hall.2 ts hts

/-- Witness for C2_prop at the identity shuffle order. -/
theorem C2_witness :
    teamsSeparated (createTeams itemsABCD itemsABCD 2 [avoidAB]) "a" "b" = true ∧
    ∀ ts ∈ runND [avoidAB] itemsABCD 2, teamsSeparated ts "a" "b" = true :=
  C2_prop itemsABCD (List.Perm.refl itemsABCD)

/-- Setting an index keeps the team count. -/
theorem pushAt_length (ts : List (List WheelItem)) (i : ℕ) (x : WheelItem) :
    (pushAt ts i x).length = ts.length :=
  List.length_set ts i _

/-- Pushing onto a team in range adds exactly that item to the flattened
membership, up to permutation. -/
theorem pushAt_flatten_perm (ts : List (List WheelItem)) : ∀ (i : ℕ) (x : WheelItem),
    i < ts.length → List.Perm (pushAt ts i x).flatten (x :: ts.flatten) := by
  induction ts with
  | nil => intro i x h; simp at h
  | cons t rest ih =>
    intro i x h
    cases i with
    | zero =>
      have hdef : pushAt (t :: rest) 0 x = (t ++ [x]) :: rest := by
        simp [pushAt]
      rw [hdef]
      simp only [List.flatten_cons, List.append_assoc, List.singleton_append]
      exact List.perm_middle
    | succ j =>
      have hdef : pushAt (t :: rest) (j + 1) x = t :: pushAt rest j x := by
        simp [pushAt, List.getD_cons_succ]
      rw [hdef]
      simp only [List.flatten_cons]
      have hj : j < rest.length := by simpa using h
      have h1 : List.Perm (t ++ (pushAt rest j x).flatten) (t ++ (x :: rest.flatten)) :=
        List.Perm.append_left t (ih j x hj)
      have h2 : List.Perm (t ++ (x :: rest.flatten)) (x :: (t ++ rest.flatten)) :=
        List.perm_middle
      exact h1.trans h2

/-- Team sizes after a push: the chosen team grows by one, others keep
their size. -/
theorem pushAt_sizes (ts : List (List WheelItem)) : ∀ (i : ℕ) (x : WheelItem),
    i < ts.length → ∀ j,
    ((pushAt ts i x).getD j []).length =
      (ts.getD j []).length + (if j = i then 1 else 0) := by
  induction ts with
  | nil => intro i x h; simp at h
  | cons t rest ih =>
    intro i x h j
    cases i with
    | zero =>
      have hdef : pushAt (t :: rest) 0 x = (t ++ [x]) :: rest := by
        simp [pushAt]
      rw [hdef]
      cases j with
      | zero => simp
      | succ k => simp [List.getD_cons_succ]
    | succ i0 =>
      have hdef : pushAt (t :: rest) (i0 + 1) x = t :: pushAt rest i0 x := by
        simp [pushAt, List.getD_cons_succ]
      rw [hdef]
      cases j with
      | zero => simp
      | succ k =>
        have hi0 : i0 < rest.length := by simpa using h
        simp only [List.getD_cons_succ]
        rw [ih i0 x hi0 k]
        by_cases hk : k = i0
        · simp [hk]
        · simp [hk, fun hkk => hk (Nat.succ_injective hkk)]

/-- Flattening a replicate of empty teams gives the empty list. -/
theorem flatten_replicate_nil (n : ℕ) :
    (List.replicate n ([] : List WheelItem)).flatten = [] := by
  induction n with
  | zero => rfl
  | succ m ih => simp [List.replicate_succ, ih]

/-- getD on a replicate of empty teams is always the empty team. -/
theorem getD_replicate_nil (n : ℕ) : ∀ j,
    (List.replicate n ([] : List WheelItem)).getD j [] = [] := by
  induction n with
  | zero => intro j; simp
  | succ m ih =>
    intro j
    cases j with
    | zero => simp [List.replicate_succ]
    | succ k => simp [List.replicate_succ, List.getD_cons_succ, ih k]

/-- Folding index-bounded pushes preserves the team count and adds
exactly the folded values to the flattened membership. -/
theorem foldl_pushAt_facts {β : Type} (N : ℕ)
    (g : List (List WheelItem) → β → ℕ) (val : β → WheelItem)
    (hg : ∀ ts x, ts.length = N → 0 < N → g ts x < N) :
    ∀ (l : List β) (ts : List (List WheelItem)), ts.length = N → 0 < N →
      (l.foldl (fun a x => pushAt a (g a x) (val x)) ts).length = N ∧
      List.Perm (l.foldl (fun a x => pushAt a (g a x) (val x)) ts).flatten
        (l.map val ++ ts.flatten) := by
  intro l
  induction l with
  | nil =>
    intro ts hts hN
    exact ⟨hts, by simp⟩
  | cons x xs ih =>
    intro ts hts hN
    have hlt : g ts x < ts.length := by rw [hts]; exact hg ts x hts hN
    have hstep : (pushAt ts (g ts x) (val x)).length = N := by
      rw [pushAt_length]; exact hts
    obtain ⟨hlen, hperm⟩ := ih (pushAt ts (g ts x) (val x)) hstep hN
    refine ⟨hlen, ?_⟩
    have hflat := pushAt_flatten_perm ts (g ts x) (val x) hlt
    have h1 : List.Perm (xs.map val ++ (pushAt ts (g ts x) (val x)).flatten)
        (xs.map val ++ (val x :: ts.flatten)) :=
      List.Perm.append_left _ hflat
    have h2 : List.Perm (xs.map val ++ (val x :: ts.flatten))
        (val x :: (xs.map val ++ ts.flatten)) := List.perm_middle
    exact (hperm.trans h1).trans h2

/-- The reduce result is among the accumulator and the list. -/
theorem reduceSmallest_mem : ∀ (l : List TeamScore) (acc : TeamScore),
    reduceSmallest acc l ∈ acc :: l := by
  intro l
  induction l with
  | nil => intro acc; simp [reduceSmallest]
  | cons s rest ih =>
    intro acc
    rw [reduceSmallest]
    have h := ih (if s.size < acc.size then s else acc)
    rcases List.mem_cons.mp h with h1 | h1
    · rw [h1]
      split_ifs
      · simp
      · simp
    · simp [h1]

/-- The reduce result has minimal size among accumulator and list. -/
theorem reduceSmallest_le : ∀ (l : List TeamScore) (acc : TeamScore),
    (reduceSmallest acc l).size ≤ acc.size ∧
    ∀ x ∈ l, (reduceSmallest acc l).size ≤ x.size := by
  intro l
  induction l with
  | nil => intro acc; exact ⟨le_refl _, by simp⟩
  | cons s rest ih =>
    intro acc
    rw [reduceSmallest]
    obtain ⟨h1, h2⟩ := ih (if s.size < acc.size then s else acc)
    have hite : (if s.size < acc.size then s else acc).size ≤ acc.size ∧
        (if s.size < acc.size then s else acc).size ≤ s.size := by
      split_ifs with hs
      · exact ⟨le_of_lt hs, le_refl _⟩
      · exact ⟨le_refl _, le_of_not_lt hs⟩
    refine ⟨le_trans h1 hite.1, ?_⟩
    intro x hx
    rcases List.mem_cons.mp hx with hx1 | hx1
    · rw [hx1]
      exact le_trans h1 hite.2
    · exact h2 x hx1

/-- Facts about a member of the score list: its index is in range and its
size and violation flag describe that team. -/
theorem teamScoresOf_mem (constraints : List TeamConstraint)
    (teams : List (List WheelItem)) (item : WheelItem) (sc : TeamScore)
    (h : sc ∈ teamScoresOf constraints teams item) :
    sc.index < teams.length ∧ sc.size = (teams.getD sc.index []).length ∧
    sc.violates = wouldViolateConstraints constraints teams item sc.index := by
  obtain ⟨i, hi, rfl⟩ := List.mem_map.mp h
  exact ⟨List.mem_range.mp hi, rfl, rfl⟩

/-- Each team index contributes its score record. -/
theorem teamScoresOf_index_mem (constraints : List TeamConstraint)
    (teams : List (List WheelItem)) (item : WheelItem) (j : ℕ)
    (hj : j < teams.length) :
    (⟨j, (teams.getD j []).length,
      wouldViolateConstraints constraints teams item j⟩ : TeamScore) ∈
      teamScoresOf constraints teams item :=
  List.mem_map.mpr ⟨j, List.mem_range.mpr hj, rfl⟩

/-- findBestTeam always returns an index below the team count. -/
theorem findBestTeam_lt (constraints : List TeamConstraint)
    (teams : List (List WheelItem)) (item : WheelItem)
    (h : 0 < teams.length) : findBestTeam constraints teams item < teams.length := by
  have hmem : ∀ sc ∈ teamScoresOf constraints teams item, sc.index < teams.length :=
    fun sc hsc => (teamScoresOf_mem constraints teams item sc hsc).1
  rw [findBestTeam]
  cases hv : (teamScoresOf constraints teams item).filter (fun s => !s.violates) with
  | cons s rest =>
    have hsub : s :: rest = (teamScoresOf constraints teams item).filter
        (fun s => !s.violates) := hv.symm
    have hmemv := reduceSmallest_mem rest s
    have : reduceSmallest s rest ∈
        (teamScoresOf constraints teams item).filter (fun s => !s.violates) := by
      rw [← hsub]; exact hmemv
    exact hmem _ (List.mem_of_mem_filter this)
  | nil =>
    cases hs : teamScoresOf constraints teams item with
    | nil =>
      exfalso
      have : (teamScoresOf constraints teams item).length = teams.length := by
        simp [teamScoresOf]
      rw [hs] at this
      simp at this
      omega
    | cons s rest =>
      have hmemv := reduceSmallest_mem rest s
      have : reduceSmallest s rest ∈ teamScoresOf constraints teams item := by
        rw [hs]; exact hmemv
      exact hmem _ this

/-- When every team would violate a constraint for the item, findBestTeam
returns an index of a team of smallest size. -/
theorem findBestTeam_min_of_all_violate (constraints : List TeamConstraint)
    (teams : List (List WheelItem)) (item : WheelItem)
    (h : 0 < teams.length)
    (hall : ∀ i < teams.length,
      wouldViolateConstraints constraints teams item i = true) :
    ∀ j < teams.length,
      (teams.getD (findBestTeam constraints teams item) []).length ≤
        (teams.getD j []).length := by
  intro j hj
  have hfilter : (teamScoresOf constraints teams item).filter
      (fun s => !s.violates) = [] := by
    apply List.filter_eq_nil_iff.mpr
    intro sc hsc
    obtain ⟨hlt, _, hviol⟩ := teamScoresOf_mem constraints teams item sc hsc
    rw [hviol, hall sc.index hlt]
    simp
  rw [findBestTeam, hfilter]
  cases hs : teamScoresOf constraints teams item with
  | nil =>
    exfalso
    have : (teamScoresOf constraints teams item).length = teams.length := by
      simp [teamScoresOf]
    rw [hs] at this
    simp at this
    omega
  | cons s rest =>
    have hmemv : reduceSmallest s rest ∈ teamScoresOf constraints teams item := by
      rw [hs]; exact reduceSmallest_mem rest s
    obtain ⟨_, hsize, _⟩ := teamScoresOf_mem constraints teams item _ hmemv
    have hjmem := teamScoresOf_index_mem constraints teams item j hj
    rw [hs] at hjmem
    obtain ⟨hle1, hle2⟩ := reduceSmallest_le rest s
    have hle : (reduceSmallest s rest).size ≤ (teams.getD j []).length := by
      rcases List.mem_cons.mp hjmem with h1 | h1
      · have hsz : s.size = (teams.getD j []).length := by rw [← h1]
        rw [← hsz]
        exact hle1
      · exact hle2 _ h1
    rw [hsize] at hle
    exact hle

/-- The fallback reduce always returns an index below the team count. -/
theorem smallestTeamIndex_lt (teams : List (List WheelItem))
    (h : 0 < teams.length) : smallestTeamIndex teams < teams.length := by
  rw [smallestTeamIndex]
  have hgen : ∀ (l : List ℕ) (acc : ℕ), acc < teams.length →
      (∀ i ∈ l, i < teams.length) →
      (l.foldl (fun smallestIndex index =>
        if (teams.getD index []).length < (teams.getD smallestIndex []).length
        then index else smallestIndex) acc) < teams.length := by
    intro l
    induction l with
    | nil => intro acc hacc _; simpa using hacc
    | cons i rest ih =>
      intro acc hacc hl
      simp only [List.foldl_cons]
      apply ih
      · by_cases hc : (teams.getD i []).length < (teams.getD acc []).length
        · rw [if_pos hc]; exact hl i (by simp)
        · rwa [if_neg hc]
      · intro k hk
        exact hl k (by simp [hk])
  exact hgen (List.range teams.length) 0 h (fun i hi => List.mem_range.mp hi)

/-- Removing an item with a unique id from a list containing it is an
inverse of consing it back, up to permutation. -/
theorem removeFirstById_cons_perm : ∀ (items : List WheelItem) (p : WheelItem),
    (items.map WheelItem.id).Nodup → p ∈ items →
    List.Perm (p :: removeFirstById items p.id) items := by
  intro items
  induction items with
  | nil => intro p _ hp; simp at hp
  | cons y ys ih =>
    intro p hids hp
    by_cases hy : y.id = p.id
    · rw [removeFirstById, if_pos hy]
      have hpy : p = y := by
        rcases List.mem_cons.mp hp with h1 | h1
        · exact h1
        · exfalso
          have h2 : p.id ∈ ys.map WheelItem.id := List.mem_map_of_mem _ h1
          rw [← hy] at h2
          simp only [List.map_cons, List.nodup_cons] at hids
          exact hids.1 h2
      rw [hpy]
    · rw [removeFirstById, if_neg hy]
      have hpy : p ≠ y := fun he => hy (by rw [he])
      have hpys : p ∈ ys := by
        rcases List.mem_cons.mp hp with h1 | h1
        · exact absurd h1 hpy
        · exact h1
      have hids2 : (ys.map WheelItem.id).Nodup := by
        simp only [List.map_cons, List.nodup_cons] at hids
        exact hids.2
      have hstep := ih p hids2 hpys
      exact (List.Perm.swap y p _).trans (hstep.cons y)

/-- Folding the by-id removals of a sub-permutation out of a unique-id
list and putting the removed items back yields a permutation of the
original list. -/
theorem remove_fold_perm : ∀ (processed items : List WheelItem),
    List.Subperm processed items → (items.map WheelItem.id).Nodup →
    List.Perm
      (processed ++ processed.foldl (fun acc it => removeFirstById acc it.id) items)
      items := by
  intro processed
  induction processed with
  | nil => intro items _ _; simp
  | cons p ps ih =>
    intro items hsub hids
    have hp : p ∈ items := hsub.subset (by simp)
    have hPR := removeFirstById_cons_perm items p hids hp
    have hsub2 : List.Subperm ps (removeFirstById items p.id) := by
      have h1 : List.Subperm (p :: ps) (p :: removeFirstById items p.id) :=
        hsub.trans hPR.symm.subperm
      exact (List.subperm_cons p).mp h1
    have hids2 : ((removeFirstById items p.id).map WheelItem.id).Nodup := by
      have hmap := hPR.map WheelItem.id
      have : ((p :: removeFirstById items p.id).map WheelItem.id).Nodup :=
        hmap.symm.nodup hids
      simp only [List.map_cons, List.nodup_cons] at this
      exact this.2
    have hstep := ih (removeFirstById items p.id) hsub2 hids2
    have hfold : (p :: ps).foldl (fun acc it => removeFirstById acc it.id) items =
        ps.foldl (fun acc it => removeFirstById acc it.id)
          (removeFirstById items p.id) := rfl
    rw [hfold]
    have : List.Perm
        (p :: (ps ++ ps.foldl (fun acc it => removeFirstById acc it.id)
          (removeFirstById items p.id)))
        (p :: removeFirstById items p.id) := hstep.cons p
    exact this.trans hPR

/-- The constrained branch of createTeams, written without lets. -/
theorem createTeams_eq_of_ne (items shuffled : List WheelItem) (teamCount : ℕ)
    (constraints : List TeamConstraint) (hc : constraints ≠ []) :
    createTeams items shuffled teamCount constraints =
      ((shuffled.take maxAttempts).foldl
          (fun acc it => removeFirstById acc it.id) items).foldl
        (fun ts it => pushAt ts (smallestTeamIndex ts) it)
        ((shuffled.take maxAttempts).foldl
          (fun ts it => pushAt ts (findBestTeam constraints ts it) it)
          (List.replicate teamCount [])) := by
  rw [createTeams, if_neg hc]

/-- The no-constraints branch keeps the team count and deals exactly the
shuffled items. -/
theorem roundRobin_facts (shuffled : List WheelItem) (tc : ℕ) (htc : 0 < tc) :
    (roundRobin shuffled tc).length = tc ∧
    List.Perm (roundRobin shuffled tc).flatten shuffled := by
  have hfacts := foldl_pushAt_facts tc (fun _ p => p.1 % tc) Prod.snd
    (fun ts x _ hN0 => Nat.mod_lt _ hN0)
    shuffled.enum (List.replicate tc []) (by simp) htc
  refine ⟨hfacts.1, ?_⟩
  have hflat := hfacts.2
  rw [List.enum_map_snd, flatten_replicate_nil, List.append_nil] at hflat
  exact hflat

/-- Claim C6: for every item list with distinct ids, team count at least
2 and arbitrary (even jointly unsatisfiable) constraint set, createTeams
terminates with exactly teamCount teams whose concatenation is a
permutation of the input items (every item in exactly one team, no
exception raised — the embedding is total); and whenever every team would
violate some constraint for an item, findBestTeam assigns the item to a
team of smallest size. -/
theorem C6_prop (items shuffled : List WheelItem) (teamCount : ℕ)
    (constraints : List TeamConstraint) (hperm : List.Perm shuffled items)
    (h2 : 2 ≤ teamCount) (hids : (items.map WheelItem.id).Nodup) :
    ((createTeams items shuffled teamCount constraints).length = teamCount ∧
     List.Perm (createTeams items shuffled teamCount constraints).flatten items) ∧
    (∀ (ts : List (List WheelItem)) (item : WheelItem), 0 < ts.length →
      (∀ i < ts.length, wouldViolateConstraints constraints ts item i = true) →
      ∀ j < ts.length,
        (ts.getD (findBestTeam constraints ts item) []).length ≤
          (ts.getD j []).length) := by
  have hN : 0 < teamCount := by omega
  constructor
  · by_cases hc : constraints = []
    · rw [createTeams, if_pos hc]
      have hfacts := roundRobin_facts shuffled teamCount hN
      exact ⟨hfacts.1, hfacts.2.trans hperm⟩
    · rw [createTeams_eq_of_ne items shuffled teamCount constraints hc]
      have hfacts1 := foldl_pushAt_facts teamCount
        (fun ts it => findBestTeam constraints ts it) id
        (fun ts x hts hN0 => by
          rw [← hts] at hN0 ⊢
          exact findBestTeam_lt constraints ts x hN0)
        (shuffled.take maxAttempts) (List.replicate teamCount []) (by simp) hN
      have hfacts2 := foldl_pushAt_facts teamCount
        (fun ts _ => smallestTeamIndex ts) id
        (fun ts x hts hN0 => by
          rw [← hts] at hN0 ⊢
          exact smallestTeamIndex_lt ts hN0)
        ((shuffled.take maxAttempts).foldl
          (fun acc it => removeFirstById acc it.id) items)
        ((shuffled.take maxAttempts).foldl
          (fun ts it => pushAt ts (findBestTeam constraints ts it) it)
          (List.replicate teamCount []))
        hfacts1.1 hN
      refine ⟨hfacts2.1, ?_⟩
      have hflat1 := hfacts1.2
      rw [List.map_id, flatten_replicate_nil, List.append_nil] at hflat1
      have hflat2 := hfacts2.2
      rw [List.map_id] at hflat2
      have hsub : List.Subperm (shuffled.take maxAttempts) items :=
        ((List.take_sublist maxAttempts shuffled).subperm).trans hperm.subperm
      have hrem := remove_fold_perm (shuffled.take maxAttempts) items hsub hids
      have hstep1 : List.Perm
          (((shuffled.take maxAttempts).foldl
              (fun acc it => removeFirstById acc it.id) items) ++
            ((shuffled.take maxAttempts).foldl
              (fun ts it => pushAt ts (findBestTeam constraints ts it) it)
              (List.replicate teamCount [])).flatten)
          (((shuffled.take maxAttempts).foldl
              (fun acc it => removeFirstById acc it.id) items) ++
            shuffled.take maxAttempts) :=
        List.Perm.append_left _ hflat1
      have hstep2 : List.Perm
          (((shuffled.take maxAttempts).foldl
              (fun acc it => removeFirstById acc it.id) items) ++
            shuffled.take maxAttempts)
          ((shuffled.take maxAttempts) ++
            ((shuffled.take maxAttempts).foldl
              (fun acc it => removeFirstById acc it.id) items)) :=
        List.perm_append_comm
      exact ((hflat2.trans hstep1).trans hstep2).trans hrem
  · intro ts item h0 hall j hj
    exact findBestTeam_min_of_all_violate constraints ts item h0 hall j hj

/-- Witness for C6_prop: three items with all three pairwise avoid
constraints and two teams, an infeasible constraint set. -/
theorem C6_witness :
    (createTeams [itemA, itemB, itemC] [itemA, itemB, itemC] 2
        [⟨"c1", "a", "b", .avoid⟩, ⟨"c2", "a", "c", .avoid⟩,
          ⟨"c3", "b", "c", .avoid⟩]).length = 2 ∧
    List.Perm (createTeams [itemA, itemB, itemC] [itemA, itemB, itemC] 2
        [⟨"c1", "a", "b", .avoid⟩, ⟨"c2", "a", "c", .avoid⟩,
          ⟨"c3", "b", "c", .avoid⟩]).flatten [itemA, itemB, itemC] :=
  (C6_prop [itemA, itemB, itemC] [itemA, itemB, itemC] 2
    [⟨"c1", "a", "b", .avoid⟩, ⟨"c2", "a", "c", .avoid⟩, ⟨"c3", "b", "c", .avoid⟩]
    (List.Perm.refl _) (by omega) (by decide)).1

/-- Successor of a remainder. -/
theorem succ_mod_cases (tc k : ℕ) (h2 : 2 ≤ tc) :
    (k + 1) % tc = if k % tc + 1 = tc then 0 else k % tc + 1 := by
  have h1 : (k + 1) % tc = (k % tc + 1 % tc) % tc := Nat.add_mod k 1 tc
  have h1m : 1 % tc = 1 := Nat.mod_eq_of_lt (by omega)
  have hr : k % tc < tc := Nat.mod_lt _ (by omega)
  rw [h1, h1m]
  by_cases hc : k % tc + 1 = tc
  · rw [if_pos hc, hc, Nat.mod_self]
  · rw [if_neg hc, Nat.mod_eq_of_lt (by omega)]

/-- One round-robin push preserves the balance invariant. -/
theorem rrInv_step (tc : ℕ) (h2 : 2 ≤ tc) (k : ℕ) (ts : List (List WheelItem))
    (x : WheelItem) (h : rrInv tc k ts) : rrInv tc (k + 1) (pushAt ts (k % tc) x) := by
  obtain ⟨hlen, m, hm⟩ := h
  have htc0 : 0 < tc := by omega
  have hr : k % tc < tc := Nat.mod_lt _ htc0
  have hrlen : k % tc < ts.length := by rw [hlen]; exact hr
  refine ⟨by rw [pushAt_length]; exact hlen, ?_⟩
  rw [succ_mod_cases tc k h2]
  by_cases hc : k % tc + 1 = tc
  · refine ⟨m + 1, ?_⟩
    intro j hj
    rw [if_pos hc, pushAt_sizes ts (k % tc) x hrlen j, hm j hj]
    split_ifs <;> omega
  · refine ⟨m, ?_⟩
    intro j hj
    rw [if_neg hc, pushAt_sizes ts (k % tc) x hrlen j, hm j hj]
    split_ifs <;> omega

/-- Folding the round-robin deal from position k preserves the invariant. -/
theorem rrInv_fold (tc : ℕ) (h2 : 2 ≤ tc) : ∀ (l : List WheelItem) (k : ℕ)
    (ts : List (List WheelItem)), rrInv tc k ts →
    rrInv tc (k + l.length)
      ((List.enumFrom k l).foldl (fun a p => pushAt a (p.1 % tc) p.2) ts) := by
  intro l
  induction l with
  | nil => intro k ts h; simpa using h
  | cons x xs ih =>
    intro k ts h
    have hstep := rrInv_step tc h2 k ts x h
    have hrec := ih (k + 1) (pushAt ts (k % tc) x) hstep
    have harith : k + 1 + xs.length = k + (x :: xs).length := by
      simp
      omega
    rw [harith] at hrec
    exact hrec

/-- The round-robin deal of the whole list satisfies the invariant. -/
theorem roundRobin_inv (shuffled : List WheelItem) (tc : ℕ) (h2 : 2 ≤ tc) :
    rrInv tc shuffled.length (roundRobin shuffled tc) := by
  have hbase : rrInv tc 0 (List.replicate tc []) := by
    refine ⟨by simp, 0, ?_⟩
    intro j hj
    rw [getD_replicate_nil]
    simp [Nat.zero_mod]
  have h := rrInv_fold tc h2 shuffled 0 (List.replicate tc []) hbase
  simpa [roundRobin] using h

/-- Claim C7: with no constraints and 2 <= teamCount <= items.length, the
partitioner's round-robin deal returns teams whose sizes differ by at
most one; in particular 7 items into 3 teams always gives the size list
[3, 2, 2]. -/
theorem C7_prop (items shuffled : List WheelItem) (teamCount : ℕ)
    (h2 : 2 ≤ teamCount) (hle : teamCount ≤ items.length)
    (hperm : List.Perm shuffled items) :
    (∀ t1 ∈ createTeams items shuffled teamCount [],
      ∀ t2 ∈ createTeams items shuffled teamCount [],
      t1.length ≤ t2.length + 1) ∧
    (items.length = 7 → teamCount = 3 →
      (createTeams items shuffled teamCount []).map List.length = [3, 2, 2]) := by
  have hN : 0 < teamCount := by omega
  have hrr : createTeams items shuffled teamCount [] = roundRobin shuffled teamCount := by
    rw [createTeams, if_pos rfl]
  obtain ⟨hlen, m, hm⟩ := roundRobin_inv shuffled teamCount h2
  have hsize : ∀ t ∈ roundRobin shuffled teamCount,
      t.length = m ∨ t.length = m + 1 := by
    intro t ht
    obtain ⟨i, hi, hieq⟩ := List.mem_iff_getElem.mp ht
    have higet : (roundRobin shuffled teamCount).getD i [] = t := by
      rw [List.getD_eq_getElem?_getD, List.getElem?_eq_getElem hi, hieq]
      rfl
    have hitc : i < teamCount := by rw [← hlen]; exact hi
    have hms := hm i hitc
    rw [higet] at hms
    split_ifs at hms <;> omega
  constructor
  · intro t1 ht1 t2 ht2
    rw [hrr] at ht1 ht2
    rcases hsize t1 ht1 with h1 | h1 <;> rcases hsize t2 ht2 with hb | hb <;> omega
  · intro h7 h3
    subst h3
    have hslen : shuffled.length = 7 := by rw [hperm.length_eq, h7]
    rw [hrr]
    obtain ⟨t0, t1, t2, hts⟩ := List.length_eq_three.mp hlen
    have h70 : (7 : ℕ) % 3 = 1 := by norm_num
    have hs0 : t0.length = m + 1 := by
      have hq := hm 0 (by omega)
      rw [hts, hslen, h70] at hq
      simpa using hq
    have hs1 : t1.length = m := by
      have hq := hm 1 (by omega)
      rw [hts, hslen, h70] at hq
      simpa [List.getD_cons_succ] using hq
    have hs2 : t2.length = m := by
      have hq := hm 2 (by omega)
      rw [hts, hslen, h70] at hq
      simpa [List.getD_cons_succ] using hq
    have htotal : t0.length + t1.length + t2.length = 7 := by
      have hfl := (roundRobin_facts shuffled 3 (by omega)).2
      have hleq := hfl.length_eq
      rw [hts, hslen] at hleq
      simpa [Nat.add_assoc] using hleq
    rw [hts]
    simp only [List.map_cons, List.map_nil]
    have hm2 : m = 2 := by omega
    rw [hs0, hs1, hs2, hm2]

/-- Witness for C7_prop: 7 concrete items into 3 teams give sizes
[3, 2, 2]. -/
theorem C7_witness :
    (createTeams
      [itemA, itemB, itemC, itemD, ⟨"e", "E", none, none⟩,
        ⟨"f", "F", none, none⟩, ⟨"g", "G", none, none⟩]
      [itemA, itemB, itemC, itemD, ⟨"e", "E", none, none⟩,
        ⟨"f", "F", none, none⟩, ⟨"g", "G", none, none⟩] 3 []).map List.length =
      [3, 2, 2] :=
  (C7_prop _ _ 3 (by omega) (by simp) (List.Perm.refl _)).2 rfl rfl

/-- Claim C3 concerns a code bug: the pick-N shuffle is the random-
comparator sort, not a uniform permutation.  Over the eight equally
likely coin outcomes the reversed order C B A occurs twice (probability
1/4) while the identity order A B C occurs once (probability 1/8), so the
permutations are not equally likely — uniformity would require
probability 1/6 for each, which no dyadic distribution attains. -/
theorem C3_prop :
    shuffleCount [⟨"3", "C", none, none⟩, ⟨"2", "B", none, none⟩,
      ⟨"1", "A", none, none⟩] = 2 ∧
    shuffleCount itemsTri = 1 ∧
    shuffleCount [⟨"3", "C", none, none⟩, ⟨"2", "B", none, none⟩,
      ⟨"1", "A", none, none⟩] ≠ shuffleCount itemsTri := by
  refine ⟨by decide, by decide, by decide⟩

/-- Claim C10: in simple mode with remove-after-pick, the second pick
(position counter 1) returns the first item whose lowercased name
contains gatien whenever the rotation search succeeds within the attempt
ceiling, the third pick (position counter 2) likewise favours raphael,
and the first pick (position counter 0) is the unbiased wheel spin. -/
theorem C10_prop (items : List WheelItem) (w : ℚ) (rand : ℕ → ℚ) :
    (∀ g, (items.find? fun it => containsSub "gatien".toList (lowerChars it.name)) = some g →
      (cheatSearch (getSegmentAngles items .simple) items g.id w rand
        0 maxAttempts).isSome = true →
      performSpin items .simple true 1 w rand = some g) ∧
    (∀ rp, (items.find? fun it => containsSub "raphael".toList (lowerChars it.name)) = some rp →
      (cheatSearch (getSegmentAngles items .simple) items rp.id w rand
        0 maxAttempts).isSome = true →
      performSpin items .simple true 2 w rand = some rp) ∧
    performSpin items .simple true 0 w rand =
      determineWinningSegment (getSegmentAngles items .simple) items
        (w + (5 + rand 0 * 5) * 360 + rand 1 * 360) := by
  refine ⟨?_, ?_, ?_⟩
  · intro g hg hsearch
    obtain ⟨c, hc⟩ := Option.isSome_iff_exists.mp hsearch
    rw [performSpin, if_pos ⟨rfl, rfl, le_refl 1⟩]
    have htarget : cheatTarget items 1 =
        items.find? fun it => containsSub "gatien".toList (lowerChars it.name) := by
      rw [cheatTarget, if_pos rfl]
    rw [htarget, hg]
    simp only [hc]
  · intro rp hrp hsearch
    obtain ⟨c, hc⟩ := Option.isSome_iff_exists.mp hsearch
    rw [performSpin, if_pos ⟨rfl, rfl, by omega⟩]
    have htarget : cheatTarget items 2 =
        items.find? fun it => containsSub "raphael".toList (lowerChars it.name) := by
      rw [cheatTarget, if_neg (by omega), if_pos rfl]
    rw [htarget, hrp]
    simp only [hc]
  · rw [performSpin, if_neg (fun h => absurd h.2.2 (by omega))]

/-- Witness for C10_prop: Gatien is present, the very first search
attempt (all injected randoms 0, candidate rotation 1800) lands on him,
and the second pick returns him. -/
theorem C10_witness :
    (gItems.find? fun it => containsSub "gatien".toList (lowerChars it.name)) =
      some ⟨"g2", "Gatien", none, none⟩ ∧
    (cheatSearch (getSegmentAngles gItems .simple) gItems "g2" 0 gRand
      0 maxAttempts).isSome = true ∧
    performSpin gItems .simple true 1 0 gRand = some ⟨"g2", "Gatien", none, none⟩ := by
  have hfind : (gItems.find? fun it => containsSub "gatien".toList (lowerChars it.name)) =
      some ⟨"g2", "Gatien", none, none⟩ := by decide
  have hseg : getSegmentAngles gItems .simple = [⟨0, 180, 180⟩, ⟨180, 180, 360⟩] := by
    rw [getSegmentAngles, if_neg (by decide)]
    norm_num [gItems, List.range_succ]
  have hp : pointerAngle 1800 = 0 := by
    have h1 : jsRem 1800 360 = 0 := by norm_num [jsRem]
    have h2 : normalize360 1800 = 0 := by rw [normalize360, h1]; norm_num [jsRem]
    rw [pointerAngle, h2]; norm_num [jsRem]
  have hx : (0 : ℚ) + (5 + gRand (2 * 0) * 3) * 360 + gRand (2 * 0 + 1) * 360 = 1800 := by
    norm_num [gRand]
  have hdet : determineWinningSegment (getSegmentAngles gItems .simple) gItems
      ((0 : ℚ) + (5 + gRand (2 * 0) * 3) * 360 + gRand (2 * 0 + 1) * 360) =
      some ⟨"g2", "Gatien", none, none⟩ := by
    rw [hx, hseg, determineWinningSegment, resolveAtPointer, hp]
    decide
  have hsearch : (cheatSearch (getSegmentAngles gItems .simple) gItems "g2" 0 gRand
      0 maxAttempts).isSome = true := by
    rw [show maxAttempts = 999 + 1 from rfl, cheatSearch]
    simp only [hdet]
    rfl
  exact ⟨hfind, hsearch,
    (C10_prop gItems 0 gRand).1 ⟨"g2", "Gatien", none, none⟩ hfind hsearch⟩
